import Mathlib

/-!
Shallow embedding of `src/ring_buffer.c`: a fixed-capacity (1024-byte)
single-producer/single-consumer byte ring buffer with two cursors
(`head` = write cursor, `tail` = read cursor) and bitmask wraparound.

C `size_t` arithmetic wraps modulo `2 ^ 64`; in the buffer code every
subtraction is immediately masked with `BUFFER_SIZE - 1`, and since
`BUFFER_SIZE` divides `2 ^ 64`, adding one multiple of `2 ^ 64` before a
natural-number subtraction reproduces the wrapped value exactly
(for cursor values below `2 ^ 64`, which `size_t` guarantees).
Byte values are modelled as `Nat`: the code copies bytes without
arithmetic, so their representation is irrelevant.
-/

namespace RingBuffer

/-- The `#define BUFFER_SIZE 1024` constant in `ring_buffer.c`. -/
def BUFFER_SIZE : Nat := 1024

/-- The modulus of C `size_t` arithmetic (64-bit). -/
def SIZE_T_MOD : Nat := 2 ^ 64

/-- The struct `ring_buffer_t`: a 1024-byte array `data` plus the two
atomic cursors `head` (write cursor) and `tail` (read cursor).
Cache-line alignment has no functional content and is not modelled. -/
structure ring_buffer_t where
  data : Fin BUFFER_SIZE → Nat
  head : Nat
  tail : Nat

/-- The index expression `k & (BUFFER_SIZE - 1)` used for every access to
`rb->data`, packaged as a `Fin BUFFER_SIZE`. -/
def mask_idx (k : Nat) : Fin BUFFER_SIZE :=
  ⟨k &&& (BUFFER_SIZE - 1), by
    have e : BUFFER_SIZE - 1 = 2 ^ 10 - 1 := by norm_num [BUFFER_SIZE]
    have e2 : BUFFER_SIZE = 2 ^ 10 := by norm_num [BUFFER_SIZE]
    rw [e, Nat.and_pow_two_sub_one_eq_mod, e2]
    exact Nat.mod_lt _ (by norm_num)⟩

/-- The free-space computation of `ring_push`:
`size_t available = (tail - head - 1) & (BUFFER_SIZE - 1);`.
The `+ SIZE_T_MOD` realises the unsigned wraparound of the C
subtraction. -/
def push_available (head tail : Nat) : Nat :=
  (tail + SIZE_T_MOD - head - 1) &&& (BUFFER_SIZE - 1)

/-- The occupancy computation of `ring_pop`:
`size_t available = (head - tail) & (BUFFER_SIZE - 1);`. -/
def pop_available (head tail : Nat) : Nat :=
  (head + SIZE_T_MOD - tail) &&& (BUFFER_SIZE - 1)

/-- The write loop of `ring_push`:
`for (i = 0; i < len; i++) rb->data[(head + i) & (BUFFER_SIZE-1)] = src[i];` -/
def push_loop (d : Fin BUFFER_SIZE → Nat) (head : Nat) (src : List Nat)
    (len : Nat) : Fin BUFFER_SIZE → Nat :=
  (List.range len).foldl
    (fun acc i => Function.update acc (mask_idx (head + i)) (src.getD i 0)) d

/-- `ring_push`: check free space, fail all-or-nothing, otherwise copy
`len` bytes of `src` in at the write cursor and publish the advanced
(masked) write cursor. Returns the C `bool` and the updated buffer. -/
def ring_push (rb : ring_buffer_t) (src : List Nat) (len : Nat) :
    Bool × ring_buffer_t :=
  let head := rb.head
  let tail := rb.tail
  let available := push_available head tail
  if len > available then (false, rb)
  else
    (true,
     { data := push_loop rb.data head src len
       head := (head + len) &&& (BUFFER_SIZE - 1)
       tail := rb.tail })

/-- `ring_pop`: check occupied bytes, fail all-or-nothing, otherwise read
`len` bytes starting at the read cursor and publish the advanced (masked)
read cursor. Returns the C `bool`, the updated buffer, and the list of
bytes written to `dst` (in write order; empty when nothing is written). -/
def ring_pop (rb : ring_buffer_t) (len : Nat) :
    Bool × ring_buffer_t × List Nat :=
  let tail := rb.tail
  let head := rb.head
  let available := pop_available head tail
  if len > available then (false, rb, [])
  else
    (true,
     { data := rb.data
       head := rb.head
       tail := (tail + len) &&& (BUFFER_SIZE - 1) },
     (List.range len).map (fun i => rb.data (mask_idx (tail + i))))

/-- A freshly initialized buffer: both cursors 0, storage zero-filled
(the test drivers `memset` the struct; claims quantify over the initial
storage separately where it matters). -/
def ring_init : ring_buffer_t :=
  { data := fun _ => 0, head := 0, tail := 0 }

/-- The states reachable from an initial state (both cursors 0, any
storage) by sequences of `ring_push` and `ring_pop` calls. -/
inductive Reachable : ring_buffer_t → Prop
  | init (d : Fin BUFFER_SIZE → Nat) : Reachable ⟨d, 0, 0⟩
  | push (s : ring_buffer_t) (src : List Nat) (len : Nat) :
      Reachable s → Reachable (ring_push s src len).2
  | pop (s : ring_buffer_t) (len : Nat) :
      Reachable s → Reachable (ring_pop s len).2.1

/-- The logical byte content of the buffer: the occupied bytes read out
from the read cursor in FIFO order. -/
def contents (s : ring_buffer_t) : List Nat :=
  (List.range (pop_available s.head s.tail)).map
    (fun i => s.data (mask_idx (s.tail + i)))

/-- A call issued by a client: a push (with the byte sequence it
supplies) or a pop (with the requested length). -/
inductive RingOp where
  | push : List Nat → RingOp
  | pop : Nat → RingOp

/-- Run a sequence of calls; return the final state, the concatenation of
all bytes supplied to the pushes, and the concatenation of all bytes
returned by the pops. -/
def runOps : ring_buffer_t → List RingOp → ring_buffer_t × List Nat × List Nat
  | s, [] => (s, [], [])
  | s, RingOp.push src :: rest =>
    let r := runOps (ring_push s src src.length).2 rest
    (r.1, src ++ r.2.1, r.2.2)
  | s, RingOp.pop len :: rest =>
    let p := ring_pop s len
    let r := runOps p.2.1 rest
    (r.1, r.2.1, p.2.2 ++ r.2.2)

/-- Each push's length stays within the free bytes, and each pop's length
within the occupied bytes, at the moment of the call. -/
def Admissible : ring_buffer_t → List RingOp → Bool
  | _, [] => true
  | s, RingOp.push src :: rest =>
    decide (src.length ≤ push_available s.head s.tail) &&
      Admissible (ring_push s src src.length).2 rest
  | s, RingOp.pop len :: rest =>
    decide (len ≤ pop_available s.head s.tail) &&
      Admissible (ring_pop s len).2.1 rest

/-!  Arithmetic facts about the mask and the two `available`
computations. -/

/-- Masking with `BUFFER_SIZE - 1` is reduction modulo `BUFFER_SIZE`
(the power-of-two capacity makes the bitmask a modulus). -/
theorem mask_eq_mod (k : Nat) : k &&& (BUFFER_SIZE - 1) = k % BUFFER_SIZE := by
  have h10 : BUFFER_SIZE - 1 = 2 ^ 10 - 1 := by norm_num [BUFFER_SIZE]
  have hb : BUFFER_SIZE = 2 ^ 10 := by norm_num [BUFFER_SIZE]
  rw [h10, Nat.and_pow_two_sub_one_eq_mod, hb]

theorem mask_lt (k : Nat) : k &&& (BUFFER_SIZE - 1) < BUFFER_SIZE :=
  (mask_idx k).2

theorem mask_idx_val (k : Nat) :
    (mask_idx k).val = k % BUFFER_SIZE := by
  simp [mask_idx, mask_eq_mod]

theorem size_t_mod_val : SIZE_T_MOD = 18446744073709551616 := by
  norm_num [SIZE_T_MOD]

theorem push_available_eq {h t : Nat} (hh : h < BUFFER_SIZE)
    (ht : t < BUFFER_SIZE) :
    push_available h t = (t + BUFFER_SIZE - h - 1) % BUFFER_SIZE := by
  simp only [push_available, mask_eq_mod]
  simp only [size_t_mod_val, BUFFER_SIZE] at *
  omega

theorem pop_available_eq {h t : Nat} (hh : h < BUFFER_SIZE)
    (ht : t < BUFFER_SIZE) :
    pop_available h t = (h + BUFFER_SIZE - t) % BUFFER_SIZE := by
  simp only [pop_available, mask_eq_mod]
  simp only [size_t_mod_val, BUFFER_SIZE] at *
  omega

/-- An empty buffer (equal cursors) has no occupied bytes, for any
cursor position. -/
theorem pop_available_self (p : Nat) : pop_available p p = 0 := by
  simp only [pop_available, mask_eq_mod]
  simp only [size_t_mod_val, BUFFER_SIZE]
  omega

theorem pop_available_lt (h t : Nat) :
    pop_available h t < BUFFER_SIZE := by
  simpa [pop_available] using mask_lt (h + SIZE_T_MOD - t)

theorem push_available_lt (h t : Nat) :
    push_available h t < BUFFER_SIZE := by
  simpa [push_available] using mask_lt (t + SIZE_T_MOD - h - 1)

theorem contents_empty {p : Nat} (d : Fin BUFFER_SIZE → Nat) :
    contents ⟨d, p, p⟩ = [] := by
  simp [contents, pop_available_self]

/-! Success/failure characterisations of push and pop. -/

theorem ring_push_of_le {s : ring_buffer_t} {src : List Nat} {len : Nat}
    (hle : len ≤ push_available s.head s.tail) :
    ring_push s src len =
      (true,
       { data := push_loop s.data s.head src len
         head := (s.head + len) &&& (BUFFER_SIZE - 1)
         tail := s.tail }) := by
  simp [ring_push, Nat.not_lt.2 hle]

theorem ring_push_of_gt {s : ring_buffer_t} {src : List Nat} {len : Nat}
    (hgt : push_available s.head s.tail < len) :
    ring_push s src len = (false, s) := by
  simp [ring_push, hgt]

theorem ring_pop_of_le {s : ring_buffer_t} {len : Nat}
    (hle : len ≤ pop_available s.head s.tail) :
    ring_pop s len =
      (true,
       { data := s.data
         head := s.head
         tail := (s.tail + len) &&& (BUFFER_SIZE - 1) },
       (List.range len).map (fun i => s.data (mask_idx (s.tail + i)))) := by
  simp [ring_pop, Nat.not_lt.2 hle]

theorem ring_pop_of_gt {s : ring_buffer_t} {len : Nat}
    (hgt : pop_available s.head s.tail < len) :
    ring_pop s len = (false, s, []) := by
  simp [ring_pop, hgt]

theorem ring_push_le_of_success {s : ring_buffer_t} {src : List Nat}
    {len : Nat} (hs : (ring_push s src len).1 = true) :
    len ≤ push_available s.head s.tail := by
  by_contra hc
  rw [ring_push_of_gt (Nat.lt_of_not_le hc)] at hs
  simp at hs

theorem ring_pop_le_of_success {s : ring_buffer_t} {len : Nat}
    (hs : (ring_pop s len).1 = true) :
    len ≤ pop_available s.head s.tail := by
  by_contra hc
  rw [ring_pop_of_gt (Nat.lt_of_not_le hc)] at hs
  simp at hs

/-- Cursor bounds are preserved by every push/pop, hence hold in every
reachable state. -/
theorem reachable_bounds {s : ring_buffer_t} (h : Reachable s) :
    s.head < BUFFER_SIZE ∧ s.tail < BUFFER_SIZE := by
  induction h with
  | init d => exact ⟨by norm_num [BUFFER_SIZE], by norm_num [BUFFER_SIZE]⟩
  | push s src len _ ih =>
    by_cases hc : len ≤ push_available s.head s.tail
    · rw [ring_push_of_le hc]
      exact ⟨mask_lt _, ih.2⟩
    · rw [ring_push_of_gt (Nat.lt_of_not_le hc)]
      exact ih
  | pop s len _ ih =>
    by_cases hc : len ≤ pop_available s.head s.tail
    · rw [ring_pop_of_le hc]
      exact ⟨ih.1, mask_lt _⟩
    · rw [ring_pop_of_gt (Nat.lt_of_not_le hc)]
      exact ih

/-! The write loop: unrolling, frame, and last-write-wins lemmas. -/

theorem push_loop_zero (d : Fin BUFFER_SIZE → Nat) (h : Nat)
    (src : List Nat) : push_loop d h src 0 = d := by
  simp [push_loop]

theorem push_loop_succ (d : Fin BUFFER_SIZE → Nat) (h : Nat)
    (src : List Nat) (n : Nat) :
    push_loop d h src (n + 1) =
      Function.update (push_loop d h src n) (mask_idx (h + n))
        (src.getD n 0) := by
  simp [push_loop, List.range_succ]

/-- Bytes at indices the loop never writes are unchanged. -/
theorem push_loop_frame (d : Fin BUFFER_SIZE → Nat) (h : Nat)
    (src : List Nat) (len : Nat) (j : Fin BUFFER_SIZE)
    (hj : ∀ i, i < len → (h + i) % BUFFER_SIZE ≠ j.val) :
    push_loop d h src len j = d j := by
  induction len with
  | zero => simp [push_loop]
  | succ n ih =>
    rw [push_loop_succ, Function.update_noteq, ih]
    · exact fun i hi => hj i (Nat.lt_succ_of_lt hi)
    · intro hcontra
      apply hj n (Nat.lt_succ_self n)
      have := congrArg Fin.val hcontra
      simpa [mask_idx, mask_eq_mod] using this.symm

/-- Within one call (`len ≤ BUFFER_SIZE`) the written indices are
pairwise distinct, so slot `(h + i) mod N` ends up holding `src[i]`. -/
theorem push_loop_getD (d : Fin BUFFER_SIZE → Nat) (h : Nat)
    (src : List Nat) (len : Nat) (hlen : len ≤ BUFFER_SIZE)
    (i : Nat) (hi : i < len) :
    push_loop d h src len (mask_idx (h + i)) = src.getD i 0 := by
  induction len with
  | zero => omega
  | succ n ih =>
    rw [push_loop_succ]
    by_cases hin : i = n
    · subst hin
      rw [Function.update_same]
    · have hi' : i < n := by omega
      rw [Function.update_noteq, ih (by omega) hi']
      intro hcontra
      have hv := congrArg Fin.val hcontra
      simp only [mask_idx, mask_eq_mod] at hv
      have hB : BUFFER_SIZE = 1024 := by norm_num [BUFFER_SIZE]
      rw [hB] at hv hlen
      omega

/-! Content transfer: a successful push appends to the logical content,
a successful pop removes from its front. -/

theorem contents_ring_push {s : ring_buffer_t} {src : List Nat} {len : Nat}
    (hh : s.head < BUFFER_SIZE) (ht : s.tail < BUFFER_SIZE)
    (hsrc : len ≤ src.length)
    (hle : len ≤ push_available s.head s.tail) :
    contents (ring_push s src len).2 = contents s ++ src.take len := by
  obtain ⟨d, h, t⟩ := s
  rw [ring_push_of_le hle]
  have hB : BUFFER_SIZE = 1024 := by norm_num [BUFFER_SIZE]
  simp only at hh ht hle
  have hh' : h < 1024 := by omega
  have ht' : t < 1024 := by omega
  have hfree : len ≤ (t + 1024 - h - 1) % 1024 := by
    rw [push_available_eq hh ht, hB] at hle
    exact hle
  have hocc : pop_available h t = (h + 1024 - t) % 1024 := by
    rw [pop_available_eq hh ht, hB]
  have hmask : (h + len) &&& (BUFFER_SIZE - 1) = (h + len) % 1024 := by
    rw [mask_eq_mod, hB]
  have hocc2 : pop_available ((h + len) % 1024) t =
      (h + 1024 - t) % 1024 + len := by
    rw [pop_available_eq (by rw [hB]; omega) ht, hB]
    omega
  simp only [contents, hmask, hocc, hocc2]
  apply List.ext_getElem
  · simp only [List.length_map, List.length_range, List.length_append,
      List.length_take]
    omega
  · intro i h1 h2
    simp only [List.length_map, List.length_range] at h1
    simp only [List.getElem_map, List.getElem_range]
    by_cases hi : i < (h + 1024 - t) % 1024
    · -- an index holding old content: untouched by the write loop
      have hframe : push_loop d h src len (mask_idx (t + i)) =
          d (mask_idx (t + i)) := by
        apply push_loop_frame
        intro i' hi'
        rw [mask_idx_val, hB]
        omega
      rw [hframe, List.getElem_append_left
        (by simp only [List.length_map, List.length_range]; omega)]
      simp
    · -- a freshly written index: it holds the pushed byte
      have hj : i - (h + 1024 - t) % 1024 < len := by omega
      have hidx : mask_idx (t + i) =
          mask_idx (h + (i - (h + 1024 - t) % 1024)) := by
        apply Fin.ext
        rw [mask_idx_val, mask_idx_val, hB]
        omega
      rw [hidx, push_loop_getD _ _ _ _ (by rw [hB]; omega) _ hj,
        List.getElem_append_right
          (by simp only [List.length_map, List.length_range]; omega)]
      simp only [List.length_map, List.length_range, List.getElem_take]
      exact List.getD_eq_getElem src 0 (Nat.lt_of_lt_of_le hj hsrc)

theorem ring_pop_out_eq_take {s : ring_buffer_t} {len : Nat}
    (hle : len ≤ pop_available s.head s.tail) :
    (ring_pop s len).2.2 = (contents s).take len := by
  rw [ring_pop_of_le hle]
  simp only [contents, ← List.map_take, List.take_range,
    Nat.min_eq_left hle]

theorem contents_ring_pop {s : ring_buffer_t} {len : Nat}
    (hh : s.head < BUFFER_SIZE) (ht : s.tail < BUFFER_SIZE)
    (hle : len ≤ pop_available s.head s.tail) :
    contents (ring_pop s len).2.1 = (contents s).drop len := by
  obtain ⟨d, h, t⟩ := s
  rw [ring_pop_of_le hle]
  have hB : BUFFER_SIZE = 1024 := by norm_num [BUFFER_SIZE]
  simp only at hh ht hle
  have hocc : pop_available h t = (h + 1024 - t) % 1024 := by
    rw [pop_available_eq hh ht, hB]
  rw [hocc] at hle
  have hmask : (t + len) &&& (BUFFER_SIZE - 1) = (t + len) % 1024 := by
    rw [mask_eq_mod, hB]
  have hocc2 : pop_available h ((t + len) % 1024) =
      (h + 1024 - t) % 1024 - len := by
    rw [pop_available_eq hh (by rw [hB]; omega), hB]
    omega
  simp only [contents, hmask, hocc, hocc2]
  apply List.ext_getElem
  · simp only [List.length_map, List.length_range, List.length_drop]
  · intro i h1 h2
    simp only [List.length_map, List.length_range] at h1
    simp only [List.getElem_drop, List.getElem_map, List.getElem_range]
    congr 1
    apply Fin.ext
    rw [mask_idx_val, mask_idx_val, hB]
    omega

/-- Transfer invariant of an admissible run: the popped bytes followed by
the bytes left in the buffer are exactly the bytes that were in the buffer
followed by all the pushed bytes. -/
theorem runOps_invariant (ops : List RingOp) :
    ∀ s : ring_buffer_t, s.head < BUFFER_SIZE → s.tail < BUFFER_SIZE →
      Admissible s ops = true →
      (runOps s ops).2.2 ++ contents (runOps s ops).1 =
        contents s ++ (runOps s ops).2.1 := by
  induction ops with
  | nil => intro s _ _ _; simp [runOps]
  | cons op rest ih =>
    intro s hh ht hadm
    cases op with
    | push src =>
      rw [Admissible, Bool.and_eq_true, decide_eq_true_eq] at hadm
      obtain ⟨hle, hadm⟩ := hadm
      have hh' : (ring_push s src src.length).2.head < BUFFER_SIZE := by
        rw [ring_push_of_le hle]; exact mask_lt _
      have ht' : (ring_push s src src.length).2.tail < BUFFER_SIZE := by
        rw [ring_push_of_le hle]; exact ht
      have hc := contents_ring_push hh ht (Nat.le_refl _) hle
      rw [List.take_length] at hc
      have := ih (ring_push s src src.length).2 hh' ht' hadm
      simp only [runOps]
      rw [this, hc, List.append_assoc]
    | pop len =>
      rw [Admissible, Bool.and_eq_true, decide_eq_true_eq] at hadm
      obtain ⟨hle, hadm⟩ := hadm
      have hh' : (ring_pop s len).2.1.head < BUFFER_SIZE := by
        rw [ring_pop_of_le hle]; exact hh
      have ht' : (ring_pop s len).2.1.tail < BUFFER_SIZE := by
        rw [ring_pop_of_le hle]; exact mask_lt _
      have hout := ring_pop_out_eq_take hle
      have hc := contents_ring_pop hh ht hle
      have := ih (ring_pop s len).2.1 hh' ht' hadm
      simp only [runOps]
      rw [List.append_assoc, this, hc, hout, ← List.append_assoc,
        List.take_append_drop]

/-! Claims. -/

/-- C1: for every sequence of `ring_push`/`ring_pop` calls on a buffer
initialized with both cursors at 0, in which each push's length stays
within the free bytes and each pop's length within the occupied bytes at
the time of the call, the concatenation of all bytes returned by the pops
is a prefix of the concatenation of all bytes supplied to the pushes
(byte for byte, FIFO, across any number of wrap-arounds). -/
theorem claim_C1_fifo (d : Fin BUFFER_SIZE → Nat) (ops : List RingOp)
    (hadm : Admissible ⟨d, 0, 0⟩ ops = true) :
    (runOps ⟨d, 0, 0⟩ ops).2.2 <+: (runOps ⟨d, 0, 0⟩ ops).2.1 := by
  have h0 : (0 : Nat) < BUFFER_SIZE := by norm_num [BUFFER_SIZE]
  have hinv := runOps_invariant ops ⟨d, 0, 0⟩ h0 h0 hadm
  rw [contents_empty] at hinv
  exact ⟨contents (runOps ⟨d, 0, 0⟩ ops).1, by simpa using hinv⟩

theorem claim_C1_fifo_witness :
    Admissible ⟨fun _ => 0, 0, 0⟩
      [RingOp.push [10, 20, 30], RingOp.pop 1, RingOp.push [40],
       RingOp.pop 3] = true ∧
    (runOps ⟨fun _ => 0, 0, 0⟩
      [RingOp.push [10, 20, 30], RingOp.pop 1, RingOp.push [40],
       RingOp.pop 3]).2.2 <+:
    (runOps ⟨fun _ => 0, 0, 0⟩
      [RingOp.push [10, 20, 30], RingOp.pop 1, RingOp.push [40],
       RingOp.pop 3]).2.1 :=
  ⟨by decide, claim_C1_fifo _ _ (by decide)⟩

/-- C2: whenever `ring_push` or `ring_pop` returns `false`, the call is a
pure no-op: the whole state (both cursors and every storage byte) is
unchanged and, for pop, nothing is written to the destination. -/
theorem claim_C2_failure_noop (s : ring_buffer_t) (src : List Nat)
    (len : Nat) :
    ((ring_push s src len).1 = false → (ring_push s src len).2 = s) ∧
    ((ring_pop s len).1 = false →
      (ring_pop s len).2.1 = s ∧ (ring_pop s len).2.2 = []) := by
  constructor
  · intro hf
    by_cases hc : len ≤ push_available s.head s.tail
    · rw [ring_push_of_le hc] at hf
      simp at hf
    · rw [ring_push_of_gt (Nat.lt_of_not_le hc)]
  · intro hf
    by_cases hc : len ≤ pop_available s.head s.tail
    · rw [ring_pop_of_le hc] at hf
      simp at hf
    · rw [ring_pop_of_gt (Nat.lt_of_not_le hc)]
      exact ⟨rfl, rfl⟩

theorem claim_C2_failure_noop_witness :
    (ring_push ring_init [] 1024).2 = ring_init ∧
    ((ring_pop ring_init 5).2.1 = ring_init ∧
     (ring_pop ring_init 5).2.2 = []) :=
  ⟨(claim_C2_failure_noop ring_init [] 1024).1 (by decide),
   (claim_C2_failure_noop ring_init [] 5).2 (by decide)⟩

set_option maxRecDepth 8192 in
/-- C4: on a freshly initialized buffer, pushing `N - 1 = 1023` bytes
succeeds, pushing `N = 1024` bytes fails, and after a successful push of
`N - 1` bytes any further push of length at least 1 fails — until a pop
frees space: after popping `k ≥ 1` bytes, a push of at most `k` bytes
succeeds again. -/
theorem claim_C4_capacity (d : Fin BUFFER_SIZE → Nat)
    (src srcN src' src2 : List Nat) (len k len2 : Nat) (hlen : 1 ≤ len)
    (hk1 : 1 ≤ k) (hk2 : k ≤ BUFFER_SIZE - 1) (hlen2 : len2 ≤ k) :
    (ring_push ⟨d, 0, 0⟩ src (BUFFER_SIZE - 1)).1 = true ∧
    (ring_push ⟨d, 0, 0⟩ srcN BUFFER_SIZE).1 = false ∧
    (ring_push (ring_push ⟨d, 0, 0⟩ src (BUFFER_SIZE - 1)).2 src' len).1 =
      false ∧
    (ring_push (ring_pop
        (ring_push ⟨d, 0, 0⟩ src (BUFFER_SIZE - 1)).2 k).2.1 src2
      len2).1 = true := by
  have hB : BUFFER_SIZE = 1024 := by norm_num [BUFFER_SIZE]
  have hav : BUFFER_SIZE - 1 ≤ push_available 0 0 := by decide
  have hltN : push_available 0 0 < BUFFER_SIZE := by decide
  have hz0 : push_available ((0 + (BUFFER_SIZE - 1)) &&& (BUFFER_SIZE - 1))
      0 < 1 := by decide
  have hfull : pop_available ((0 + (BUFFER_SIZE - 1)) &&&
      (BUFFER_SIZE - 1)) 0 = BUFFER_SIZE - 1 := by decide
  have hpop1 : k ≤ pop_available ((0 + (BUFFER_SIZE - 1)) &&&
      (BUFFER_SIZE - 1)) 0 := by omega
  have hfinal : len2 ≤ push_available ((0 + (BUFFER_SIZE - 1)) &&&
      (BUFFER_SIZE - 1)) ((0 + k) &&& (BUFFER_SIZE - 1)) := by
    rw [mask_eq_mod, mask_eq_mod,
      push_available_eq (Nat.mod_lt _ (by omega)) (Nat.mod_lt _ (by omega)),
      hB]
    omega
  refine ⟨?_, ?_, ?_, ?_⟩
  · rw [ring_push_of_le hav]
  · rw [ring_push_of_gt hltN]
  · rw [ring_push_of_le hav,
      ring_push_of_gt (Nat.lt_of_lt_of_le hz0 hlen)]
  · rw [ring_push_of_le hav, ring_pop_of_le hpop1,
      ring_push_of_le hfinal]

theorem claim_C4_capacity_witness :
    ((1 : Nat) ≤ 1 ∧ 1 ≤ 2 ∧ 2 ≤ BUFFER_SIZE - 1 ∧ 1 ≤ 2) ∧
    ((ring_push ⟨fun _ => 0, 0, 0⟩ (List.replicate 1023 7)
        (BUFFER_SIZE - 1)).1 = true ∧
     (ring_push ⟨fun _ => 0, 0, 0⟩ (List.replicate 1024 7)
        BUFFER_SIZE).1 = false ∧
     (ring_push (ring_push ⟨fun _ => 0, 0, 0⟩ (List.replicate 1023 7)
        (BUFFER_SIZE - 1)).2 [9] 1).1 = false ∧
     (ring_push (ring_pop (ring_push ⟨fun _ => 0, 0, 0⟩
        (List.replicate 1023 7) (BUFFER_SIZE - 1)).2 2).2.1 [11] 1).1 =
       true) :=
  ⟨⟨by decide, by decide, by decide, by decide⟩,
   claim_C4_capacity (fun _ => 0) (List.replicate 1023 7)
     (List.replicate 1024 7) [9] [11] 1 2 1 (by decide) (by decide)
     (by decide) (by decide)⟩

/-- C5: in every reachable state, a push or pop whose length exceeds the
maximum usable capacity `N - 1 = 1023` returns `false` — the same boolean
`false` that reports a transient insufficient-space/data failure. -/
theorem claim_C5_oversized (s : ring_buffer_t) (src : List Nat) (len : Nat)
    (_hreach : Reachable s) (hlen : BUFFER_SIZE - 1 < len) :
    (ring_push s src len).1 = false ∧ (ring_pop s len).1 = false := by
  constructor
  · rw [ring_push_of_gt (by have := push_available_lt s.head s.tail; omega)]
  · rw [ring_pop_of_gt (by have := pop_available_lt s.head s.tail; omega)]

theorem claim_C5_oversized_witness :
    Reachable ring_init ∧ BUFFER_SIZE - 1 < 2000 ∧
    ((ring_push ring_init [] 2000).1 = false ∧
     (ring_pop ring_init 2000).1 = false) :=
  ⟨Reachable.init _, by decide,
   claim_C5_oversized ring_init [] 2000 (Reachable.init _) (by decide)⟩

/-- C6 counterexample: the claim quantifies over arbitrary starting
cursors, but when the buffer is non-empty (here head 1, tail 0, one
occupied byte 7), a successful push of byte 5 followed by a successful
pop of length 1 returns the older byte 7, not the pushed byte. -/
theorem claim_C6_counterexample :
    (ring_push ⟨fun _ => 7, 1, 0⟩ [5] 1).1 = true ∧
    (ring_pop (ring_push ⟨fun _ => 7, 1, 0⟩ [5] 1).2 1).1 = true ∧
    (ring_pop (ring_push ⟨fun _ => 7, 1, 0⟩ [5] 1).2 1).2.2 ≠ [5] := by
  refine ⟨by decide, by decide, ?_⟩
  have h : (ring_pop (ring_push ⟨fun _ => 7, 1, 0⟩ [5] 1).2 1).2.2 =
      [7] := by decide
  rw [h]
  decide

/-- C6 amended: starting from an EMPTY buffer with both cursors at any
common position `p` (in particular positions where the transferred range
wraps past index `N-1` to 0), a push of `len ≤ N-1` bytes succeeds and a
pop of the same length succeeds and returns exactly the pushed bytes. -/
theorem claim_C6_wraparound (d : Fin BUFFER_SIZE → Nat) (p : Nat)
    (hp : p < BUFFER_SIZE) (src : List Nat) (len : Nat)
    (hsrc : len ≤ src.length) (hlen : len ≤ BUFFER_SIZE - 1) :
    (ring_push ⟨d, p, p⟩ src len).1 = true ∧
    (ring_pop (ring_push ⟨d, p, p⟩ src len).2 len).1 = true ∧
    (ring_pop (ring_push ⟨d, p, p⟩ src len).2 len).2.2 = src.take len := by
  have hB : BUFFER_SIZE = 1024 := by norm_num [BUFFER_SIZE]
  have hfree : push_available p p = BUFFER_SIZE - 1 := by
    rw [push_available_eq hp hp, hB]
    omega
  have hle : len ≤ push_available p p := by omega
  have hc := contents_ring_push (s := ⟨d, p, p⟩) hp hp hsrc hle
  rw [contents_empty, List.nil_append] at hc
  rw [ring_push_of_le hle] at hc ⊢
  have hocc : pop_available ((p + len) &&& (BUFFER_SIZE - 1)) p = len := by
    rw [mask_eq_mod]
    rw [pop_available_eq (Nat.mod_lt _ (by omega)) hp, hB]
    omega
  have hle2 : len ≤ pop_available ((p + len) &&& (BUFFER_SIZE - 1)) p := by
    omega
  refine ⟨rfl, ?_, ?_⟩
  · rw [ring_pop_of_le hle2]
  · rw [ring_pop_out_eq_take hle2, hc, List.take_take, Nat.min_self]

theorem claim_C6_wraparound_witness :
    (ring_push ⟨fun _ => 0, 1020, 1020⟩ [1, 2, 3, 4, 5, 6, 7, 8] 8).1 =
      true ∧
    (ring_pop (ring_push ⟨fun _ => 0, 1020, 1020⟩
      [1, 2, 3, 4, 5, 6, 7, 8] 8).2 8).1 = true ∧
    (ring_pop (ring_push ⟨fun _ => 0, 1020, 1020⟩
      [1, 2, 3, 4, 5, 6, 7, 8] 8).2 8).2.2 =
      List.take 8 [1, 2, 3, 4, 5, 6, 7, 8] :=
  claim_C6_wraparound (fun _ => 0) 1020 (by decide)
    [1, 2, 3, 4, 5, 6, 7, 8] 8 (by decide) (by decide)

/-- C7: zero-length push and zero-length pop always succeed and change
nothing (given in-range cursors, which every real buffer state has); a
zero-length pop succeeds even on an empty buffer, while a pop of length
at least 1 on an empty buffer (equal cursors) fails. -/
theorem claim_C7_zero_length (s : ring_buffer_t) (src : List Nat)
    (hh : s.head < BUFFER_SIZE) (ht : s.tail < BUFFER_SIZE) :
    ring_push s src 0 = (true, s) ∧
    ring_pop s 0 = (true, s, []) ∧
    (s.head = s.tail → ∀ len, 1 ≤ len → (ring_pop s len).1 = false) := by
  obtain ⟨d, h, t⟩ := s
  simp only at hh ht
  refine ⟨?_, ?_, ?_⟩
  · rw [ring_push_of_le (Nat.zero_le _), push_loop_zero,
      show (h + 0) &&& (BUFFER_SIZE - 1) = h by
        rw [Nat.add_zero, mask_eq_mod]
        exact Nat.mod_eq_of_lt hh]
  · rw [ring_pop_of_le (Nat.zero_le _),
      show (t + 0) &&& (BUFFER_SIZE - 1) = t by
        rw [Nat.add_zero, mask_eq_mod]
        exact Nat.mod_eq_of_lt ht]
    simp
  · intro hemp len hlen
    simp only at hemp
    rw [ring_pop_of_gt (by
      show pop_available h t < len
      rw [hemp, pop_available_self]
      omega)]

theorem claim_C7_zero_length_witness :
    ring_push ring_init [3] 0 = (true, ring_init) ∧
    ring_pop ring_init 0 = (true, ring_init, []) ∧
    (ring_pop ring_init 5).1 = false := by
  have h := claim_C7_zero_length ring_init [3] (by decide) (by decide)
  exact ⟨h.1, h.2.1, h.2.2 rfl 5 (by decide)⟩

/-- C8: in every reachable state both cursors lie in `[0, N-1]`; the
occupied-byte count `(write - read) mod N` and the free-byte count
`(read - write - 1) mod N` both lie in `[0, N-1]` and are exactly the
`available` quantities computed by `ring_pop` and `ring_push`. -/
theorem claim_C8_cursor_invariants (s : ring_buffer_t)
    (hs : Reachable s) :
    s.head < BUFFER_SIZE ∧ s.tail < BUFFER_SIZE ∧
    pop_available s.head s.tail =
      (((s.head : Int) - (s.tail : Int)) % (BUFFER_SIZE : Int)).toNat ∧
    pop_available s.head s.tail < BUFFER_SIZE ∧
    push_available s.head s.tail =
      (((s.tail : Int) - (s.head : Int) - 1) % (BUFFER_SIZE : Int)).toNat ∧
    push_available s.head s.tail < BUFFER_SIZE := by
  obtain ⟨hh, ht⟩ := reachable_bounds hs
  have hB : BUFFER_SIZE = 1024 := by norm_num [BUFFER_SIZE]
  refine ⟨hh, ht, ?_, pop_available_lt _ _, ?_, push_available_lt _ _⟩
  · rw [pop_available_eq hh ht, hB]
    omega
  · rw [push_available_eq hh ht, hB]
    omega

theorem claim_C8_cursor_invariants_witness :
    ring_init.head < BUFFER_SIZE ∧ ring_init.tail < BUFFER_SIZE ∧
    pop_available ring_init.head ring_init.tail =
      (((ring_init.head : Int) - (ring_init.tail : Int)) %
        (BUFFER_SIZE : Int)).toNat ∧
    pop_available ring_init.head ring_init.tail < BUFFER_SIZE ∧
    push_available ring_init.head ring_init.tail =
      (((ring_init.tail : Int) - (ring_init.head : Int) - 1) %
        (BUFFER_SIZE : Int)).toNat ∧
    push_available ring_init.head ring_init.tail < BUFFER_SIZE :=
  claim_C8_cursor_invariants ring_init (Reachable.init _)

/-- C9: for in-range cursor pairs, occupied plus free bytes is always
`N - 1`; a successful push of length `L` increases the occupied count by
exactly `L` and decreases the free count by exactly `L`, and a successful
pop does the reverse — in every reachable state. -/
theorem claim_C9_conservation :
    (∀ h t : Nat, h < BUFFER_SIZE → t < BUFFER_SIZE →
      pop_available h t + push_available h t = BUFFER_SIZE - 1) ∧
    (∀ (s : ring_buffer_t) (src : List Nat) (len : Nat), Reachable s →
      (ring_push s src len).1 = true →
      pop_available (ring_push s src len).2.head
          (ring_push s src len).2.tail =
        pop_available s.head s.tail + len ∧
      push_available (ring_push s src len).2.head
          (ring_push s src len).2.tail =
        push_available s.head s.tail - len) ∧
    (∀ (s : ring_buffer_t) (len : Nat), Reachable s →
      (ring_pop s len).1 = true →
      pop_available (ring_pop s len).2.1.head
          (ring_pop s len).2.1.tail =
        pop_available s.head s.tail - len ∧
      push_available (ring_pop s len).2.1.head
          (ring_pop s len).2.1.tail =
        push_available s.head s.tail + len) := by
  have hB : BUFFER_SIZE = 1024 := by norm_num [BUFFER_SIZE]
  refine ⟨?_, ?_, ?_⟩
  · intro h t hh ht
    rw [pop_available_eq hh ht, push_available_eq hh ht, hB]
    omega
  · intro s src len hreach hsucc
    obtain ⟨hh, ht⟩ := reachable_bounds hreach
    have hle := ring_push_le_of_success hsucc
    rw [push_available_eq hh ht, hB] at hle
    rw [ring_push_of_le (by rw [push_available_eq hh ht, hB]; omega)]
    simp only
    rw [mask_eq_mod,
      pop_available_eq (Nat.mod_lt _ (by omega)) ht,
      push_available_eq (Nat.mod_lt _ (by omega)) ht,
      pop_available_eq hh ht, push_available_eq hh ht, hB]
    constructor
    · omega
    · omega
  · intro s len hreach hsucc
    obtain ⟨hh, ht⟩ := reachable_bounds hreach
    have hle := ring_pop_le_of_success hsucc
    rw [pop_available_eq hh ht, hB] at hle
    rw [ring_pop_of_le (by rw [pop_available_eq hh ht, hB]; omega)]
    simp only
    rw [mask_eq_mod,
      pop_available_eq hh (Nat.mod_lt _ (by omega)),
      push_available_eq hh (Nat.mod_lt _ (by omega)),
      pop_available_eq hh ht, push_available_eq hh ht, hB]
    constructor
    · omega
    · omega

theorem claim_C9_conservation_witness :
    (pop_available 0 0 + push_available 0 0 = BUFFER_SIZE - 1) ∧
    (pop_available (ring_push ring_init [4, 5] 2).2.head
        (ring_push ring_init [4, 5] 2).2.tail =
      pop_available ring_init.head ring_init.tail + 2 ∧
     push_available (ring_push ring_init [4, 5] 2).2.head
        (ring_push ring_init [4, 5] 2).2.tail =
      push_available ring_init.head ring_init.tail - 2) ∧
    (pop_available (ring_pop (ring_push ring_init [4, 5] 2).2 2).2.1.head
        (ring_pop (ring_push ring_init [4, 5] 2).2 2).2.1.tail =
      pop_available (ring_push ring_init [4, 5] 2).2.head
        (ring_push ring_init [4, 5] 2).2.tail - 2 ∧
     push_available (ring_pop (ring_push ring_init [4, 5] 2).2 2).2.1.head
        (ring_pop (ring_push ring_init [4, 5] 2).2 2).2.1.tail =
      push_available (ring_push ring_init [4, 5] 2).2.head
        (ring_push ring_init [4, 5] 2).2.tail + 2) :=
  ⟨claim_C9_conservation.1 0 0 (by decide) (by decide),
   claim_C9_conservation.2.1 ring_init [4, 5] 2 (Reachable.init _)
     (by decide),
   claim_C9_conservation.2.2 (ring_push ring_init [4, 5] 2).2 2
     (Reachable.push _ _ _ (Reachable.init _)) (by decide)⟩

/-- C10: a successful push changes only the write cursor and the storage
bytes at indices `(head + i) mod N` for `i < len` (which receive the
source bytes), leaving the read cursor and all other bytes intact; a
successful pop changes only the read cursor and never writes to
storage. -/
theorem claim_C10_frame (s : ring_buffer_t) (src : List Nat) (len : Nat) :
    ((ring_push s src len).1 = true →
      (ring_push s src len).2.tail = s.tail ∧
      (∀ j : Fin BUFFER_SIZE,
        (∀ i, i < len → (s.head + i) % BUFFER_SIZE ≠ j.val) →
        (ring_push s src len).2.data j = s.data j) ∧
      (∀ i, i < len →
        (ring_push s src len).2.data (mask_idx (s.head + i)) =
          src.getD i 0)) ∧
    ((ring_pop s len).1 = true →
      (ring_pop s len).2.1.head = s.head ∧
      (ring_pop s len).2.1.data = s.data) := by
  constructor
  · intro hsucc
    have hle := ring_push_le_of_success hsucc
    have hlen : len ≤ BUFFER_SIZE :=
      Nat.le_of_lt (Nat.lt_of_le_of_lt hle (push_available_lt _ _))
    rw [ring_push_of_le hle]
    refine ⟨rfl, ?_, ?_⟩
    · intro j hj
      exact push_loop_frame _ _ _ _ _ hj
    · intro i hi
      exact push_loop_getD _ _ _ _ hlen _ hi
  · intro hsucc
    have hle := ring_pop_le_of_success hsucc
    rw [ring_pop_of_le hle]
    exact ⟨rfl, rfl⟩

theorem claim_C10_frame_witness :
    (ring_push ring_init [8, 9] 2).2.tail = ring_init.tail ∧
    (ring_push ring_init [8, 9] 2).2.data ⟨5, by norm_num [BUFFER_SIZE]⟩ =
      ring_init.data ⟨5, by norm_num [BUFFER_SIZE]⟩ ∧
    (ring_push ring_init [8, 9] 2).2.data (mask_idx (ring_init.head + 0)) =
      List.getD [8, 9] 0 0 ∧
    (ring_pop (ring_push ring_init [8, 9] 2).2 1).2.1.head =
      (ring_push ring_init [8, 9] 2).2.head ∧
    (ring_pop (ring_push ring_init [8, 9] 2).2 1).2.1.data =
      (ring_push ring_init [8, 9] 2).2.data := by
  have h1 := (claim_C10_frame ring_init [8, 9] 2).1 (by decide)
  have h2 := (claim_C10_frame (ring_push ring_init [8, 9] 2).2 [] 1).2
    (by decide)
  exact ⟨h1.1, h1.2.1 ⟨5, by norm_num [BUFFER_SIZE]⟩ (by decide),
    h1.2.2 0 (by decide), h2.1, h2.2⟩

end RingBuffer
